import Mathlib

set_option maxHeartbeats 1000000

/-
Verification development for the video-merge utility (src/merge.py).
Python strings are modelled as List Char; the filesystem, the command
search path and the external transcoder are modelled as oracles passed
explicitly to the embedded functions.
-/

/-- Characters of a string literal; the model of a Python str value. -/
def chars (s : String) : List Char := s.data

/-- Three-way comparison of naturals, the model of Python integer comparison. -/
def natCompare (a b : Nat) : Ordering :=
  if a < b then Ordering.lt else if b < a then Ordering.gt else Ordering.eq

/-- Lexicographic comparison of character lists by code point; the model of
Python str comparison. -/
def strCmp : List Char → List Char → Ordering
  | [], [] => Ordering.eq
  | [], _ :: _ => Ordering.lt
  | _ :: _, [] => Ordering.gt
  | a :: as, b :: bs =>
    match natCompare a.toNat b.toNat with
    | Ordering.eq => strCmp as bs
    | o => o

/-- Extend the run decomposition of the tail by a digit character, merging it
into a leading digit run when the tail starts with one. -/
def consDigit (c : Char) : List (List Char) → List (List Char)
  | [] :: d :: rest => [] :: (c :: d) :: rest
  | r => [] :: [c] :: r

/-- Extend the run decomposition of the tail by a non-digit character. -/
def consNonDigit (c : Char) : List (List Char) → List (List Char)
  | r0 :: rest => (c :: r0) :: rest
  | [] => [[c]]

/-- The model of Python re.split applied to the pattern of one captured digit
run: the alternating list of non-digit and digit runs of the input, beginning
and ending with a possibly empty non-digit run. -/
def splitDigitRuns : List Char → List (List Char)
  | [] => [[]]
  | c :: cs =>
    if c.isDigit then consDigit c (splitDigitRuns cs)
    else consNonDigit c (splitDigitRuns cs)

/-- The model of Python str.isdigit restricted to ASCII inputs. -/
def pyIsdigit (t : List Char) : Bool := !t.isEmpty && t.all (fun c => c.isDigit)

/-- The model of Python int applied to a non-empty decimal digit string. -/
def digitsToNat (t : List Char) : Nat := t.foldl (fun a c => a * 10 + (c.toNat - 48)) 0

/-- A natural-sort key element: either a lowercased text run or the integer
value of a digit run. -/
inductive PyKeyElem where
  | s (t : List Char)
  | i (n : Nat)
deriving DecidableEq

/-- Whether a key element is a text run. -/
def PyKeyElem.isStr : PyKeyElem → Bool
  | .s _ => true
  | .i _ => false

/-- Key element produced from one run, as in the comprehension of
natural_sort_key in src/merge.py. -/
def keyElem (t : List Char) : PyKeyElem :=
  if pyIsdigit t then PyKeyElem.i (digitsToNat t) else PyKeyElem.s (t.map Char.toLower)

/-- The model of natural_sort_key in src/merge.py. -/
def natural_sort_key (s : List Char) : List PyKeyElem :=
  (splitDigitRuns s).map keyElem

/-- Python comparison of two key elements; none models the TypeError raised
when an int is compared against a str. -/
def elemCmp : PyKeyElem → PyKeyElem → Option Ordering
  | PyKeyElem.i m, PyKeyElem.i n => some (natCompare m n)
  | PyKeyElem.s a, PyKeyElem.s b => some (strCmp a b)
  | _, _ => none

/-- Python lexicographic comparison of two key lists, propagating a
comparison TypeError and sorting a proper prefix first. -/
def listCmp : List PyKeyElem → List PyKeyElem → Option Ordering
  | [], [] => some Ordering.eq
  | [], _ :: _ => some Ordering.lt
  | _ :: _, [] => some Ordering.gt
  | a :: as, b :: bs =>
    match elemCmp a b with
    | none => none
    | some Ordering.eq => listCmp as bs
    | some o => some o

/-- The strict order on filenames induced by natural_sort_key under Python
list comparison. -/
def natLt (s t : List Char) : Prop :=
  listCmp (natural_sort_key s) (natural_sort_key t) = some Ordering.lt

instance instDecNatLt : ∀ s t, Decidable (natLt s t) := fun s t =>
  inferInstanceAs
    (Decidable (listCmp (natural_sort_key s) (natural_sort_key t) = some Ordering.lt))

/-- Incomparability under the natural order. -/
def natIncomp (s t : List Char) : Prop := ¬ natLt s t ∧ ¬ natLt t s

instance instDecNatIncomp : ∀ s t, Decidable (natIncomp s t) := fun s t =>
  inferInstanceAs (Decidable (¬ natLt s t ∧ ¬ natLt t s))

/-- Stable insertion of a name into a sorted list of names. -/
def insertNat (x : List Char) : List (List Char) → List (List Char)
  | [] => [x]
  | y :: ys => if natLt y x then y :: insertNat x ys else x :: y :: ys

/-- The model of list.sort with key natural_sort_key in src/merge.py: a
stable sort by the natural order. -/
def sortNat (l : List (List Char)) : List (List Char) := l.foldr insertNat []

/-- Shape invariant of a run decomposition: runs alternate between digit-free
text (index false) and non-empty all-digit runs (index true). -/
inductive Runs : Bool → List (List Char) → Prop where
  | nil : ∀ b, Runs b []
  | nd : ∀ t l, (∀ c ∈ t, c.isDigit = false) → Runs true l → Runs false (t :: l)
  | dg : ∀ t l, t ≠ [] → (∀ c ∈ t, c.isDigit = true) → Runs false l → Runs true (t :: l)

/-- Modelled from the spec: comparison of two runs occupying the same
position — digit runs compare by integer value, non-digit runs compare
case-insensitively as text. -/
def spec_runCmp (a b : List Char) : Ordering :=
  if pyIsdigit a && pyIsdigit b then natCompare (digitsToNat a) (digitsToNat b)
  else strCmp (a.map Char.toLower) (b.map Char.toLower)

/-- Modelled from the spec: run-by-run comparison, left to right, with a
run sequence that is a proper prefix of the other sorting first. -/
def spec_runsCmp : List (List Char) → List (List Char) → Ordering
  | [], [] => Ordering.eq
  | [], _ :: _ => Ordering.lt
  | _ :: _, [] => Ordering.gt
  | a :: as, b :: bs =>
    match spec_runCmp a b with
    | Ordering.eq => spec_runsCmp as bs
    | o => o

/-- Modelled from the spec: the order on filenames described for the
Natural Order Comparator. -/
def spec_lt (s t : List Char) : Prop :=
  spec_runsCmp (splitDigitRuns s) (splitDigitRuns t) = Ordering.lt

/-- Index of the last occurrence of a character, or -1 when absent; the model
of Python str.rfind applied to a single character. -/
def rfindChar (c : Char) (p : List Char) : Int :=
  p.enum.foldl (fun acc pair => if pair.2 = c then (pair.1 : Int) else acc) (-1)

/-- The model of os.path.splitext for POSIX paths: split at the last dot of
the final component, unless only leading dots precede it. -/
def splitext (p : List Char) : List Char × List Char :=
  let si := rfindChar '/' p
  let di := rfindChar '.' p
  if si < di then
    if ((p.drop (si + 1).toNat).take (di - si - 1).toNat).any (fun ch => ch != '.') then
      (p.take di.toNat, p.drop di.toNat)
    else (p, [])
  else (p, [])

/-- The extension allow-list SUPPORTED_EXTENSIONS of src/merge.py. -/
def SUPPORTED_EXTENSIONS : List (List Char) :=
  [chars (".mp4"), chars (".mov"), chars (".mkv"), chars (".avi"), chars (".webm"),
   chars (".m4v"), chars (".ts"), chars (".mts"), chars (".m2ts"), chars (".3gp")]

/-- The model of is_video_file in src/merge.py; isfile is the oracle for
os.path.isfile, true exactly on paths denoting regular files. -/
def is_video_file (isfile : List Char → Bool) (path : List Char) : Bool :=
  if isfile path then
    decide ((splitext path).2.map Char.toLower ∈ SUPPORTED_EXTENSIONS)
  else false

/-- The model of the replace call in build_filelist_file: every single-quote
character becomes the four-character sequence quote, backslash, quote, quote. -/
def escape_quotes : List Char → List Char
  | [] => []
  | c :: cs =>
    (if c = '\'' then ['\'', '\\', '\'', '\''] else [c]) ++ escape_quotes cs

/-- Reader states for the concat-demuxer quoted-token grammar: between
quoted spans, inside a quoted span, or after a backslash between spans. -/
inductive QState where
  | outside
  | inside
  | escaped
deriving DecidableEq

/-- Reader for the concat-demuxer quoted-token grammar: single-quoted spans
with backslash-escaped quotes between them. Returns none exactly when the
token is malformed, in particular on an unterminated quoted span. -/
def parseQ : QState → List Char → Option (List Char)
  | QState.outside, [] => some []
  | QState.inside, [] => none
  | QState.escaped, [] => none
  | QState.inside, c :: rest =>
    if c = '\'' then parseQ QState.outside rest
    else Option.map (fun t => c :: t) (parseQ QState.inside rest)
  | QState.outside, c :: rest =>
    if c = '\'' then parseQ QState.inside rest
    else if c = '\\' then parseQ QState.escaped rest
    else none
  | QState.escaped, c :: rest =>
    if c = '\'' then Option.map (fun t => '\'' :: t) (parseQ QState.outside rest)
    else none

/-- One manifest line of build_filelist_file in src/merge.py: the given path
made absolute by the abspath oracle, escaped, and wrapped in file quoting. -/
def manifest_line (abspath : List Char → List Char) (p : List Char) : List Char :=
  chars ("file '") ++ escape_quotes (abspath p) ++ chars ("'")

/-- The lines written by build_filelist_file in src/merge.py, one per input
path, in list order. -/
def build_filelist_lines (abspath : List Char → List Char)
    (file_paths : List (List Char)) : List (List Char) :=
  file_paths.map (manifest_line abspath)

/-- Observed result of one external transcoder invocation: its exit status,
its captured error output, and whether the output path then exists with the
given size. -/
structure AttemptResult where
  returncode : Int
  stderr : List Char
  outputExists : Bool
  outputSize : Nat
deriving DecidableEq

/-- The success criterion applied after each attempt in run_ffmpeg_concat:
exit status zero, output exists, output size greater than zero. -/
def attemptOk (a : AttemptResult) : Bool :=
  a.returncode == 0 && a.outputExists && decide (0 < a.outputSize)

/-- The merge strategies, in the order run_ffmpeg_concat invokes them. -/
inductive Strategy where
  | streamCopy
  | reencode
deriving DecidableEq

/-- Success message of the stream-copy attempt. -/
def msgCopy : List Char := chars ("Merged with stream copy.")

/-- Success message of the re-encode attempt. -/
def msgReencode : List Char := chars ("Merged with re-encode.")

/-- Generic sentinel used when neither attempt produced error output. -/
def msgUnknown : List Char := chars ("Unknown error from ffmpeg")

/-- Diagnostic chosen on total failure: Python or-chaining of the two stderr
captures and the sentinel. -/
def mergeDiag (r1 r2 : AttemptResult) : List Char :=
  if r1.stderr = [] then (if r2.stderr = [] then msgUnknown else r2.stderr) else r1.stderr

/-- The model of run_ffmpeg_concat in src/merge.py. The two AttemptResult
arguments are the oracle responses to the stream-copy and re-encode
invocations; the second component of the result is the trace of strategies
actually invoked, in order. -/
def run_ffmpeg_concat (r1 r2 : AttemptResult) : (Bool × List Char) × List Strategy :=
  if attemptOk r1 then ((true, msgCopy), [Strategy.streamCopy])
  else if attemptOk r2 then ((true, msgReencode), [Strategy.streamCopy, Strategy.reencode])
  else ((false, mergeDiag r1 r2), [Strategy.streamCopy, Strategy.reencode])

/-- The model of os.path.join for POSIX paths, restricted to two components
as used in src/merge.py. -/
def pathJoin (a b : List Char) : List Char :=
  if b.head? = some '/' then b
  else if a = [] then b
  else if a.getLast? = some '/' then a ++ b
  else a ++ '/' :: b

/-- The environment of one run of main in src/merge.py: the command search
path, parsed arguments, working directory, directory listing, filesystem
oracles, the transcoder oracle, and whether the manifest deletion raises. -/
structure Env where
  ffmpegFound : Bool
  argOutput : Option (List Char)
  includeHidden : Bool
  timestamp : List Char
  cwd : List Char
  listdir : List (List Char)
  isfile : List Char → Bool
  abspath : List Char → List Char
  execRaises : Bool
  runCopy : AttemptResult
  runReencode : AttemptResult
  removeRaises : Bool

/-- Result of main: a process exit code, or an uncaught exception. -/
inductive MainRes where
  | exit (code : Int)
  | raised
deriving DecidableEq

/-- Observable side effects of one run of main: whether the nothing-to-do
message was printed, the input paths written to the manifest when one was
created, whether manifest deletion was attempted and succeeded, and the
trace of transcoder invocations. -/
structure Effects where
  nothingToDo : Bool
  manifestInputs : Option (List (List Char))
  removeAttempted : Bool
  manifestRemoved : Bool
  invocations : List Strategy
deriving DecidableEq

/-- Directory entries surviving the hidden-file filter in main. -/
def candidatesOf (env : Env) : List (List Char) :=
  env.listdir.filter (fun f => env.includeHidden || !(decide (f.head? = some '.')))

/-- The classified video files of main, naturally sorted. -/
def videoFilesOf (env : Env) : List (List Char) :=
  sortNat ((candidatesOf env).filter (fun f => is_video_file env.isfile (pathJoin env.cwd f)))

/-- The output name of main: the explicit argument, or the timestamped
default. -/
def output_nameOf (env : Env) : List Char :=
  match env.argOutput with
  | some o => o
  | none => chars ("merged_") ++ env.timestamp ++ chars (".mp4")

/-- The resolved output path of main. -/
def output_pathOf (env : Env) : List Char :=
  env.abspath (pathJoin env.cwd (output_nameOf env))

/-- The inputs of main after excluding files resolving to the output path. -/
def inputsOf (env : Env) : List (List Char) :=
  (videoFilesOf env).filter
    (fun f => decide (env.abspath (pathJoin env.cwd f) ≠ output_pathOf env))

/-- The model of main in src/merge.py (named merge_main since Lean reserves the name main). -/
def merge_main (env : Env) : MainRes × Effects :=
  if env.ffmpegFound = false then
    (MainRes.exit 1, ⟨false, none, false, false, []⟩)
  else if (videoFilesOf env).length < 2 then
    (MainRes.exit 0, ⟨true, none, false, false, []⟩)
  else if (inputsOf env).length < 2 then
    (MainRes.exit 0, ⟨true, none, false, false, []⟩)
  else
    let manifestPaths := (inputsOf env).map (fun f => pathJoin env.cwd f)
    if env.execRaises then
      (MainRes.raised, ⟨false, some manifestPaths, true, !env.removeRaises, []⟩)
    else
      let r := run_ffmpeg_concat env.runCopy env.runReencode
      (if r.1.1 then MainRes.exit 0 else MainRes.exit 2,
       ⟨false, some manifestPaths, true, !env.removeRaises, r.2⟩)

/-- The same environment with the manifest-deletion failure flag replaced. -/
def setRemoveRaises (env : Env) (b : Bool) : Env :=
  ⟨env.ffmpegFound, env.argOutput, env.includeHidden, env.timestamp, env.cwd,
   env.listdir, env.isfile, env.abspath, env.execRaises, env.runCopy,
   env.runReencode, b⟩

/-- Environment of a run with two inputs where both merge attempts fail. -/
def envBothFail : Env :=
  ⟨true, some (chars ("out.mp4")), false, chars ("20250101_000000"), chars ("/d"),
   [chars ("a.mp4"), chars ("b.mp4")], fun _ => true, fun p => p, false,
   ⟨1, chars ("err"), false, 0⟩, ⟨1, [], false, 0⟩, false⟩

/-- Environment of a run that discovers a single video file. -/
def envOneVideo : Env :=
  ⟨true, none, false, chars ("20250101_000000"), chars ("/d"), [chars ("a.mp4")],
   fun _ => true, fun p => p, false, ⟨0, [], true, 1⟩, ⟨0, [], true, 1⟩, false⟩

/-- Environment of a second run whose directory already holds the output of
the first run under the same explicit output name. -/
def envOutputClash : Env :=
  ⟨true, some (chars ("out.mp4")), false, chars ("20250101_000000"), chars ("/d"),
   [chars ("b.mp4"), chars ("a.mp4"), chars ("out.mp4")], fun _ => true, fun p => p,
   false, ⟨0, [], true, 5⟩, ⟨0, [], true, 5⟩, false⟩

theorem natCompare_eq_iff {a b : Nat} : natCompare a b = Ordering.eq ↔ a = b := by
  unfold natCompare
  by_cases h1 : a < b
  · simp [h1]; omega
  · by_cases h2 : b < a
    · simp [h1, h2]; omega
    · simp [h1, h2]; omega

theorem natCompare_lt_iff {a b : Nat} : natCompare a b = Ordering.lt ↔ a < b := by
  unfold natCompare
  by_cases h1 : a < b
  · simp [h1]
  · by_cases h2 : b < a
    · simp [h1, h2]
    · simp [h1, h2]

theorem natCompare_gt_iff {a b : Nat} : natCompare a b = Ordering.gt ↔ b < a := by
  unfold natCompare
  by_cases h1 : a < b
  · simp [h1]; omega
  · by_cases h2 : b < a
    · simp [h1, h2]
    · simp [h1, h2]

theorem natCompare_swap (a b : Nat) : natCompare b a = (natCompare a b).swap := by
  unfold natCompare
  by_cases h1 : a < b
  · simp [h1, Nat.lt_asymm h1, Ordering.swap]
  · by_cases h2 : b < a
    · simp [h1, h2, Ordering.swap]
    · simp [h1, h2, Ordering.swap]

theorem char_toNat_inj {a b : Char} (h : a.toNat = b.toNat) : a = b :=
  Char.eq_of_val_eq (UInt32.eq_of_val_eq (Fin.ext h))

theorem strCmp_eq_iff : ∀ {s t : List Char}, strCmp s t = Ordering.eq ↔ s = t := by
  intro s
  induction s with
  | nil =>
    intro t
    cases t with
    | nil => simp [strCmp]
    | cons b bs => simp [strCmp]
  | cons a as ih =>
    intro t
    cases t with
    | nil => simp [strCmp]
    | cons b bs =>
      cases hc : natCompare a.toNat b.toNat with
      | eq =>
        have hab : a = b := char_toNat_inj (natCompare_eq_iff.mp hc)
        subst hab
        simp [strCmp, hc, ih]
      | lt =>
        have hab : a ≠ b := by
          intro hq
          rw [hq] at hc
          have := natCompare_lt_iff.mp hc
          omega
        simp [strCmp, hc, hab]
      | gt =>
        have hab : a ≠ b := by
          intro hq
          rw [hq] at hc
          have := natCompare_gt_iff.mp hc
          omega
        simp [strCmp, hc, hab]

theorem strCmp_swap : ∀ s t : List Char, strCmp t s = (strCmp s t).swap := by
  intro s
  induction s with
  | nil =>
    intro t
    cases t with
    | nil => simp [strCmp, Ordering.swap]
    | cons b bs => simp [strCmp, Ordering.swap]
  | cons a as ih =>
    intro t
    cases t with
    | nil => simp [strCmp, Ordering.swap]
    | cons b bs =>
      cases hc : natCompare a.toNat b.toNat with
      | eq =>
        have hc2 : natCompare b.toNat a.toNat = Ordering.eq := by
          rw [natCompare_swap, hc]; rfl
        simp [strCmp, hc, hc2, ih]
      | lt =>
        have hc2 : natCompare b.toNat a.toNat = Ordering.gt := by
          rw [natCompare_swap, hc]; rfl
        simp [strCmp, hc, hc2, Ordering.swap]
      | gt =>
        have hc2 : natCompare b.toNat a.toNat = Ordering.lt := by
          rw [natCompare_swap, hc]; rfl
        simp [strCmp, hc, hc2, Ordering.swap]

theorem strCmp_lt_trans :
    ∀ s t u : List Char, strCmp s t = Ordering.lt → strCmp t u = Ordering.lt →
      strCmp s u = Ordering.lt := by
  intro s
  induction s with
  | nil =>
    intro t u h1 h2
    cases t with
    | nil => simp [strCmp] at h1
    | cons b bs =>
      cases u with
      | nil => simp [strCmp] at h2
      | cons c cs => simp [strCmp]
  | cons a as ih =>
    intro t u h1 h2
    cases t with
    | nil => simp [strCmp] at h1
    | cons b bs =>
      cases u with
      | nil => simp [strCmp] at h2
      | cons c cs =>
        cases hab : natCompare a.toNat b.toNat with
        | eq =>
          have haeb : a = b := char_toNat_inj (natCompare_eq_iff.mp hab)
          rw [strCmp, hab] at h1
          cases hbc : natCompare b.toNat c.toNat with
          | eq =>
            have hbec : b = c := char_toNat_inj (natCompare_eq_iff.mp hbc)
            rw [strCmp, hbc] at h2
            have hac : natCompare a.toNat c.toNat = Ordering.eq := by
              rw [haeb, hbec, natCompare_eq_iff]
            rw [strCmp, hac]
            exact ih bs cs h1 h2
          | lt =>
            have hac : natCompare a.toNat c.toNat = Ordering.lt := by
              rw [haeb]; exact hbc
            rw [strCmp, hac]
          | gt => rw [strCmp, hbc] at h2; exact absurd h2 (by simp)
        | lt =>
          cases hbc : natCompare b.toNat c.toNat with
          | eq =>
            have hbec : b = c := char_toNat_inj (natCompare_eq_iff.mp hbc)
            have hac : natCompare a.toNat c.toNat = Ordering.lt := by
              rw [← hbec]; exact hab
            rw [strCmp, hac]
          | lt =>
            have hac : natCompare a.toNat c.toNat = Ordering.lt := by
              rw [natCompare_lt_iff] at hab hbc ⊢
              omega
            rw [strCmp, hac]
          | gt => rw [strCmp, hbc] at h2; exact absurd h2 (by simp)
        | gt => rw [strCmp, hab] at h1; exact absurd h1 (by simp)

theorem runs_consDigit {c : Char} (hc : c.isDigit = true) {rs : List (List Char)}
    (h : Runs false rs) : Runs false (consDigit c rs) := by
  cases h with
  | nil =>
    exact Runs.nd [] [[c]] (by simp)
      (Runs.dg [c] [] (by simp) (by simpa using hc) (Runs.nil false))
  | nd t l hnd hl =>
    cases t with
    | nil =>
      cases hl with
      | nil =>
        exact Runs.nd [] [[c], []] (by simp)
          (Runs.dg [c] [[]] (by simp) (by simpa using hc)
            (Runs.nd [] [] (by simp) (Runs.nil true)))
      | dg d l2 hdne hdig hl2 =>
        exact Runs.nd [] ((c :: d) :: l2) (by simp)
          (Runs.dg (c :: d) l2 (by simp)
            (by intro x hx; rcases List.mem_cons.mp hx with hx | hx
                · rw [hx]; exact hc
                · exact hdig x hx) hl2)
    | cons a t0 =>
      exact Runs.nd [] ([c] :: (a :: t0) :: l) (by simp)
        (Runs.dg [c] ((a :: t0) :: l) (by simp) (by simpa using hc)
          (Runs.nd (a :: t0) l hnd hl))

theorem runs_consNonDigit {c : Char} (hc : c.isDigit = false) {rs : List (List Char)}
    (h : Runs false rs) : Runs false (consNonDigit c rs) := by
  cases h with
  | nil =>
    exact Runs.nd [c] [] (by simpa using hc) (Runs.nil true)
  | nd t l hnd hl =>
    exact Runs.nd (c :: t) l
      (by intro x hx; rcases List.mem_cons.mp hx with hx | hx
          · rw [hx]; exact hc
          · exact hnd x hx) hl

theorem runs_split (s : List Char) : Runs false (splitDigitRuns s) := by
  induction s with
  | nil => exact Runs.nd [] [] (by simp) (Runs.nil true)
  | cons c cs ih =>
    by_cases hd : c.isDigit
    · rw [splitDigitRuns, if_pos hd]
      exact runs_consDigit hd ih
    · rw [splitDigitRuns, if_neg hd]
      exact runs_consNonDigit (Bool.not_eq_true _ ▸ eq_false_of_ne_true hd) ih

theorem pyIsdigit_nd {t : List Char} (h : ∀ c ∈ t, c.isDigit = false) :
    pyIsdigit t = false := by
  cases t with
  | nil => simp [pyIsdigit]
  | cons a t0 => simp [pyIsdigit, h a (by simp)]

theorem pyIsdigit_dg {t : List Char} (hne : t ≠ []) (h : ∀ c ∈ t, c.isDigit = true) :
    pyIsdigit t = true := by
  cases t with
  | nil => exact absurd rfl hne
  | cons a t0 =>
    simp [pyIsdigit, List.all_eq_true]
    exact ⟨h a (by simp), fun c hc => h c (by simp [hc])⟩

theorem keyElem_nd {t : List Char} (h : ∀ c ∈ t, c.isDigit = false) :
    keyElem t = PyKeyElem.s (t.map Char.toLower) := by
  simp [keyElem, pyIsdigit_nd h]

theorem keyElem_dg {t : List Char} (hne : t ≠ []) (h : ∀ c ∈ t, c.isDigit = true) :
    keyElem t = PyKeyElem.i (digitsToNat t) := by
  simp [keyElem, pyIsdigit_dg hne h]

theorem elemCmp_refl (a : PyKeyElem) : elemCmp a a = some Ordering.eq := by
  cases a with
  | s t => simp [elemCmp, strCmp_eq_iff]
  | i n => simp [elemCmp, natCompare_eq_iff]

theorem elemCmp_eq_iff {x y : PyKeyElem} : elemCmp x y = some Ordering.eq ↔ x = y := by
  cases x with
  | s a =>
    cases y with
    | s b => simp [elemCmp, strCmp_eq_iff]
    | i n => simp [elemCmp]
  | i m =>
    cases y with
    | s b => simp [elemCmp]
    | i n => simp [elemCmp, natCompare_eq_iff]

theorem elemCmp_swap (x y : PyKeyElem) : elemCmp y x = (elemCmp x y).map Ordering.swap := by
  cases x with
  | s a =>
    cases y with
    | s b => simp only [elemCmp]; rw [strCmp_swap a b]; rfl
    | i n => simp [elemCmp]
  | i m =>
    cases y with
    | s b => simp [elemCmp]
    | i n => simp only [elemCmp]; rw [natCompare_swap m n]; rfl

theorem elemCmp_lt_trans {x y z : PyKeyElem} (h1 : elemCmp x y = some Ordering.lt)
    (h2 : elemCmp y z = some Ordering.lt) : elemCmp x z = some Ordering.lt := by
  cases x with
  | s a =>
    cases y with
    | s b =>
      cases z with
      | s c =>
        simp [elemCmp] at h1 h2 ⊢
        exact strCmp_lt_trans a b c h1 h2
      | i n => simp [elemCmp] at h2
    | i n => simp [elemCmp] at h1
  | i m =>
    cases y with
    | s b => simp [elemCmp] at h1
    | i n =>
      cases z with
      | s c => simp [elemCmp] at h2
      | i p =>
        simp [elemCmp, natCompare_lt_iff] at h1 h2 ⊢
        omega

theorem listCmp_refl : ∀ l : List PyKeyElem, listCmp l l = some Ordering.eq := by
  intro l
  induction l with
  | nil => rfl
  | cons a as ih => simp [listCmp, elemCmp_refl, ih]

theorem listCmp_eq_iff : ∀ l1 l2 : List PyKeyElem,
    listCmp l1 l2 = some Ordering.eq ↔ l1 = l2 := by
  intro l1
  induction l1 with
  | nil =>
    intro l2
    cases l2 with
    | nil => simp [listCmp]
    | cons b bs => simp [listCmp]
  | cons a as ih =>
    intro l2
    cases l2 with
    | nil => simp [listCmp]
    | cons b bs =>
      cases he : elemCmp a b with
      | none =>
        simp only [listCmp, he]
        constructor
        · intro hq; simp at hq
        · intro hq
          injection hq with h1 h2
          subst h1; subst h2
          rw [elemCmp_refl] at he
          simp at he
      | some o =>
        cases o with
        | eq =>
          have hab : a = b := elemCmp_eq_iff.mp he
          subst hab
          simp only [listCmp, elemCmp_refl]
          rw [ih]
          simp
        | lt =>
          simp only [listCmp, he]
          constructor
          · intro hq; simp at hq
          · intro hq
            injection hq with h1 h2
            subst h1; subst h2
            rw [elemCmp_refl] at he
            simp at he
        | gt =>
          simp only [listCmp, he]
          constructor
          · intro hq; simp at hq
          · intro hq
            injection hq with h1 h2
            subst h1; subst h2
            rw [elemCmp_refl] at he
            simp at he

theorem listCmp_swap : ∀ l1 l2 : List PyKeyElem,
    listCmp l2 l1 = (listCmp l1 l2).map Ordering.swap := by
  intro l1
  induction l1 with
  | nil =>
    intro l2
    cases l2 with
    | nil => rfl
    | cons b bs => rfl
  | cons a as ih =>
    intro l2
    cases l2 with
    | nil => rfl
    | cons b bs =>
      cases he : elemCmp a b with
      | none =>
        have hba : elemCmp b a = none := by rw [elemCmp_swap a b, he]; rfl
        simp only [listCmp, he, hba]
        rfl
      | some o =>
        cases o with
        | eq =>
          have hba : elemCmp b a = some Ordering.eq := by rw [elemCmp_swap a b, he]; rfl
          simp only [listCmp, he, hba]
          exact ih bs
        | lt =>
          have hba : elemCmp b a = some Ordering.gt := by rw [elemCmp_swap a b, he]; rfl
          simp only [listCmp, he, hba]
          rfl
        | gt =>
          have hba : elemCmp b a = some Ordering.lt := by rw [elemCmp_swap a b, he]; rfl
          simp only [listCmp, he, hba]
          rfl

theorem listCmp_lt_trans : ∀ l1 l2 l3 : List PyKeyElem,
    listCmp l1 l2 = some Ordering.lt → listCmp l2 l3 = some Ordering.lt →
    listCmp l1 l3 = some Ordering.lt := by
  intro l1
  induction l1 with
  | nil =>
    intro l2 l3 h1 h2
    cases l2 with
    | nil => simp [listCmp] at h1
    | cons b bs =>
      cases l3 with
      | nil => simp [listCmp] at h2
      | cons c cs => simp [listCmp]
  | cons a as ih =>
    intro l2 l3 h1 h2
    cases l2 with
    | nil => simp [listCmp] at h1
    | cons b bs =>
      cases l3 with
      | nil => simp [listCmp] at h2
      | cons c cs =>
        cases hab : elemCmp a b with
        | none => rw [listCmp, hab] at h1; cases h1
        | some oab =>
          cases hbc : elemCmp b c with
          | none => rw [listCmp, hbc] at h2; cases h2
          | some obc =>
            cases oab with
            | eq =>
              have haeb : a = b := elemCmp_eq_iff.mp hab
              subst haeb
              rw [listCmp, hab] at h1
              cases obc with
              | eq =>
                have hbec : a = c := elemCmp_eq_iff.mp hbc
                subst hbec
                rw [listCmp, hbc] at h2
                rw [listCmp, elemCmp_refl]
                exact ih bs cs h1 h2
              | lt => rw [listCmp, hbc]
              | gt => rw [listCmp, hbc] at h2; cases h2
            | lt =>
              cases obc with
              | eq =>
                have hbec : b = c := elemCmp_eq_iff.mp hbc
                subst hbec
                rw [listCmp, hab]
              | lt => rw [listCmp, elemCmp_lt_trans hab hbc]
              | gt => rw [listCmp, hbc] at h2; cases h2
            | gt => rw [listCmp, hab] at h1; cases h1

theorem runsAligned : ∀ {b : Bool} {rs1 rs2 : List (List Char)}, Runs b rs1 → Runs b rs2 →
    listCmp (rs1.map keyElem) (rs2.map keyElem) = some (spec_runsCmp rs1 rs2) := by
  intro b rs1 rs2 h1 h2
  induction h1 generalizing rs2 with
  | nil bb =>
    cases h2 with
    | nil => rfl
    | nd t l hnd hl => rfl
    | dg t l hne hdig hl => rfl
  | nd t l hnd hl ih =>
    cases h2 with
    | nil => rfl
    | nd t2 l2 hnd2 hl2 =>
      rw [List.map_cons, List.map_cons, keyElem_nd hnd, keyElem_nd hnd2]
      have hpa : pyIsdigit t = false := pyIsdigit_nd hnd
      have hsp : spec_runCmp t t2 = strCmp (t.map Char.toLower) (t2.map Char.toLower) := by
        simp [spec_runCmp, hpa]
      cases hsc : strCmp (t.map Char.toLower) (t2.map Char.toLower) with
      | eq =>
        have hel : elemCmp (PyKeyElem.s (t.map Char.toLower)) (PyKeyElem.s (t2.map Char.toLower)) =
            some Ordering.eq := by simp [elemCmp, hsc]
        have hrc : spec_runCmp t t2 = Ordering.eq := by rw [hsp, hsc]
        simp only [listCmp, spec_runsCmp, hel, hrc]
        exact ih hl2
      | lt =>
        have hel : elemCmp (PyKeyElem.s (t.map Char.toLower)) (PyKeyElem.s (t2.map Char.toLower)) =
            some Ordering.lt := by simp [elemCmp, hsc]
        have hrc : spec_runCmp t t2 = Ordering.lt := by rw [hsp, hsc]
        simp only [listCmp, spec_runsCmp, hel, hrc]
      | gt =>
        have hel : elemCmp (PyKeyElem.s (t.map Char.toLower)) (PyKeyElem.s (t2.map Char.toLower)) =
            some Ordering.gt := by simp [elemCmp, hsc]
        have hrc : spec_runCmp t t2 = Ordering.gt := by rw [hsp, hsc]
        simp only [listCmp, spec_runsCmp, hel, hrc]
  | dg t l hne hdig hl ih =>
    cases h2 with
    | nil => rfl
    | dg t2 l2 hne2 hdig2 hl2 =>
      rw [List.map_cons, List.map_cons, keyElem_dg hne hdig, keyElem_dg hne2 hdig2]
      have hpa : pyIsdigit t = true := pyIsdigit_dg hne hdig
      have hpb : pyIsdigit t2 = true := pyIsdigit_dg hne2 hdig2
      have hsp : spec_runCmp t t2 = natCompare (digitsToNat t) (digitsToNat t2) := by
        simp [spec_runCmp, hpa, hpb]
      cases hsc : natCompare (digitsToNat t) (digitsToNat t2) with
      | eq =>
        have hel : elemCmp (PyKeyElem.i (digitsToNat t)) (PyKeyElem.i (digitsToNat t2)) =
            some Ordering.eq := by simp [elemCmp, hsc]
        have hrc : spec_runCmp t t2 = Ordering.eq := by rw [hsp, hsc]
        simp only [listCmp, spec_runsCmp, hel, hrc]
        exact ih hl2
      | lt =>
        have hel : elemCmp (PyKeyElem.i (digitsToNat t)) (PyKeyElem.i (digitsToNat t2)) =
            some Ordering.lt := by simp [elemCmp, hsc]
        have hrc : spec_runCmp t t2 = Ordering.lt := by rw [hsp, hsc]
        simp only [listCmp, spec_runsCmp, hel, hrc]
      | gt =>
        have hel : elemCmp (PyKeyElem.i (digitsToNat t)) (PyKeyElem.i (digitsToNat t2)) =
            some Ordering.gt := by simp [elemCmp, hsc]
        have hrc : spec_runCmp t t2 = Ordering.gt := by rw [hsp, hsc]
        simp only [listCmp, spec_runsCmp, hel, hrc]

/-- Comparing two natural-sort keys never raises: the comparison is defined
and agrees with the comparison of run sequences described by the spec. -/
theorem natKey_cmp_defined (s t : List Char) :
    listCmp (natural_sort_key s) (natural_sort_key t) =
      some (spec_runsCmp (splitDigitRuns s) (splitDigitRuns t)) :=
  runsAligned (runs_split s) (runs_split t)

theorem natLt_irrefl (s : List Char) : ¬ natLt s s := by
  unfold natLt
  rw [listCmp_refl]
  simp

theorem natLt_trans {s t u : List Char} (h1 : natLt s t) (h2 : natLt t u) : natLt s u :=
  listCmp_lt_trans _ _ _ h1 h2

theorem natIncomp_key_eq {s t : List Char} (h : natIncomp s t) :
    natural_sort_key s = natural_sort_key t := by
  obtain ⟨h1, h2⟩ := h
  have hd := natKey_cmp_defined s t
  cases ho : spec_runsCmp (splitDigitRuns s) (splitDigitRuns t) with
  | eq =>
    rw [ho] at hd
    exact (listCmp_eq_iff _ _).mp hd
  | lt =>
    rw [ho] at hd
    exact absurd hd h1
  | gt =>
    rw [ho] at hd
    have hswap := listCmp_swap (natural_sort_key s) (natural_sort_key t)
    rw [hd] at hswap
    exact absurd hswap h2

theorem runs_pos : ∀ {b : Bool} {rs : List (List Char)}, Runs b rs →
    ∀ i e, (List.map keyElem rs)[i]? = some e →
      e.isStr = (decide (i % 2 = 0) != b) := by
  intro b rs h
  induction h with
  | nil => intro i e he; simp at he
  | nd t l hnd hl ih =>
    intro i e he
    cases i with
    | zero =>
      rw [List.map_cons] at he
      simp at he
      rw [← he, keyElem_nd hnd]
      rfl
    | succ j =>
      rw [List.map_cons] at he
      simp only [List.getElem?_cons_succ] at he
      rw [ih j e he]
      by_cases hj : j % 2 = 0
      · have hj1 : ¬((j + 1) % 2 = 0) := by omega
        simp [hj, hj1]
      · have hj1 : (j + 1) % 2 = 0 := by omega
        simp [hj, hj1]
  | dg t l hne hdig hl ih =>
    intro i e he
    cases i with
    | zero =>
      rw [List.map_cons] at he
      simp at he
      rw [← he, keyElem_dg hne hdig]
      rfl
    | succ j =>
      rw [List.map_cons] at he
      simp only [List.getElem?_cons_succ] at he
      rw [ih j e he]
      by_cases hj : j % 2 = 0
      · have hj1 : ¬((j + 1) % 2 = 0) := by omega
        simp [hj, hj1]
      · have hj1 : (j + 1) % 2 = 0 := by omega
        simp [hj, hj1]

theorem natKey_pos (s : List Char) (i : Nat) (e : PyKeyElem)
    (he : (natural_sort_key s)[i]? = some e) : e.isStr = decide (i % 2 = 0) := by
  have := runs_pos (runs_split s) i e he
  simpa using this

theorem parseQ_in_q (l : List Char) :
    parseQ QState.inside ('\'' :: l) = parseQ QState.outside l := by
  simp [parseQ]

theorem parseQ_in_other {c : Char} (hc : c ≠ '\'') (l : List Char) :
    parseQ QState.inside (c :: l) =
      Option.map (fun t => c :: t) (parseQ QState.inside l) := by
  simp [parseQ, hc]

theorem parseQ_out_q (l : List Char) :
    parseQ QState.outside ('\'' :: l) = parseQ QState.inside l := by
  simp [parseQ]

theorem parseQ_out_bs (l : List Char) :
    parseQ QState.outside ('\\' :: '\'' :: l) =
      Option.map (fun t => '\'' :: t) (parseQ QState.outside l) := by
  simp [parseQ]

theorem parse_escape : ∀ p : List Char,
    parseQ QState.inside (escape_quotes p ++ ['\'']) = some p := by
  intro p
  induction p with
  | nil => rfl
  | cons c cs ih =>
    by_cases hc : c = '\''
    · subst hc
      have hq : escape_quotes ('\'' :: cs) ++ ['\''] =
          '\'' :: '\\' :: '\'' :: '\'' :: (escape_quotes cs ++ ['\'']) := by
        simp [escape_quotes]
      rw [hq, parseQ_in_q, parseQ_out_bs, parseQ_out_q, ih]
      rfl
    · have hq : escape_quotes (c :: cs) ++ ['\''] = c :: (escape_quotes cs ++ ['\'']) := by
        simp [escape_quotes, hc]
      rw [hq, parseQ_in_other hc, ih]
      rfl

/-- Claim C1: for every manifest path and output path, the Merge Executor
first invokes the transcoder in stream-copy mode and invokes the re-encode
fallback if and only if the stream-copy attempt fails; each attempt succeeds
exactly when the process exits with status zero, the output exists and its
size is positive; on success the outcome records the strategy used, no
further attempt is made, and never more than two attempts are made. -/
theorem C1_merge_executor (r1 r2 : AttemptResult) :
    (run_ffmpeg_concat r1 r2).2.head? = some Strategy.streamCopy
    ∧ (Strategy.reencode ∈ (run_ffmpeg_concat r1 r2).2 ↔ attemptOk r1 = false)
    ∧ (∀ r : AttemptResult, attemptOk r = true ↔
        (r.returncode = 0 ∧ r.outputExists = true ∧ 0 < r.outputSize))
    ∧ (attemptOk r1 = true →
        run_ffmpeg_concat r1 r2 = ((true, msgCopy), [Strategy.streamCopy]))
    ∧ (attemptOk r1 = false → attemptOk r2 = true →
        run_ffmpeg_concat r1 r2 =
          ((true, msgReencode), [Strategy.streamCopy, Strategy.reencode]))
    ∧ (run_ffmpeg_concat r1 r2).2.length ≤ 2 := by
  refine ⟨?_, ?_, ?_, ?_, ?_, ?_⟩
  · by_cases h1 : attemptOk r1 = true
    · simp [run_ffmpeg_concat, h1]
    · by_cases h2 : attemptOk r2 = true
      · simp [run_ffmpeg_concat, h1, h2]
      · simp [run_ffmpeg_concat, h1, h2]
  · by_cases h1 : attemptOk r1 = true
    · simp [run_ffmpeg_concat, h1]
    · by_cases h2 : attemptOk r2 = true
      · simp [run_ffmpeg_concat, h1, h2]
      · simp [run_ffmpeg_concat, h1, h2]
  · intro r
    simp [attemptOk, Bool.and_eq_true, beq_iff_eq, decide_eq_true_eq, and_assoc]
  · intro h1
    simp [run_ffmpeg_concat, h1]
  · intro h1 h2
    simp [run_ffmpeg_concat, h1, h2]
  · by_cases h1 : attemptOk r1 = true
    · simp [run_ffmpeg_concat, h1]
    · by_cases h2 : attemptOk r2 = true
      · simp [run_ffmpeg_concat, h1, h2]
      · simp [run_ffmpeg_concat, h1, h2]

theorem C1_merge_executor_witness :
    run_ffmpeg_concat ⟨1, chars ("boom"), false, 0⟩ ⟨0, [], true, 7⟩ =
      ((true, msgReencode), [Strategy.streamCopy, Strategy.reencode]) :=
  (C1_merge_executor ⟨1, chars ("boom"), false, 0⟩ ⟨0, [], true, 7⟩).2.2.2.2.1
    (by decide) (by decide)

/-- Claim C7: when neither merge attempt succeeds the Merge Executor returns
failure together with the first attempt's error output when non-empty, else
the second attempt's when non-empty, else the unknown-error sentinel. -/
theorem C7_failure_diagnostic (r1 r2 : AttemptResult)
    (h1 : attemptOk r1 = false) (h2 : attemptOk r2 = false) :
    (run_ffmpeg_concat r1 r2).1.1 = false
    ∧ (r1.stderr ≠ [] → (run_ffmpeg_concat r1 r2).1.2 = r1.stderr)
    ∧ (r1.stderr = [] → r2.stderr ≠ [] → (run_ffmpeg_concat r1 r2).1.2 = r2.stderr)
    ∧ (r1.stderr = [] → r2.stderr = [] → (run_ffmpeg_concat r1 r2).1.2 = msgUnknown) := by
  refine ⟨?_, ?_, ?_, ?_⟩
  · simp [run_ffmpeg_concat, h1, h2]
  · intro hne
    simp [run_ffmpeg_concat, h1, h2, mergeDiag, hne]
  · intro he hne
    simp [run_ffmpeg_concat, h1, h2, mergeDiag, he, hne]
  · intro he1 he2
    simp [run_ffmpeg_concat, h1, h2, mergeDiag, he1, he2]

theorem C7_failure_diagnostic_witness :
    (run_ffmpeg_concat ⟨1, [], false, 0⟩ ⟨1, chars ("bad"), true, 0⟩).1.1 = false
    ∧ (run_ffmpeg_concat ⟨1, [], false, 0⟩ ⟨1, chars ("bad"), true, 0⟩).1.2 = chars ("bad") :=
  ⟨(C7_failure_diagnostic ⟨1, [], false, 0⟩ ⟨1, chars ("bad"), true, 0⟩
      (by decide) (by decide)).1,
   (C7_failure_diagnostic ⟨1, [], false, 0⟩ ⟨1, chars ("bad"), true, 0⟩
      (by decide) (by decide)).2.2.1 (by decide) (by decide)⟩

/-- Claim C5: the Video Classifier returns true iff the path denotes a
regular file whose extension, case-insensitively, is in the allow-list; it
returns false, without raising, for nonexistent paths, directories, and
regular files with unlisted extensions, and true for a regular file named
a.MP4. -/
theorem C5_video_classifier :
    (∀ isfile : List Char → Bool, ∀ path : List Char,
      is_video_file isfile path = true ↔
        (isfile path = true ∧ (splitext path).2.map Char.toLower ∈ SUPPORTED_EXTENSIONS))
    ∧ (∀ isfile : List Char → Bool, ∀ path : List Char,
        isfile path = false → is_video_file isfile path = false)
    ∧ (∀ isfile : List Char → Bool,
        isfile (chars ("notes.txt")) = true →
        is_video_file isfile (chars ("notes.txt")) = false)
    ∧ (∀ isfile : List Char → Bool,
        isfile (chars ("a.MP4")) = true →
        is_video_file isfile (chars ("a.MP4")) = true) := by
  refine ⟨?_, ?_, ?_, ?_⟩
  · intro isf p
    by_cases h : isf p = true
    · simp [is_video_file, h]
    · simp [is_video_file, h]
  · intro isf p h
    simp [is_video_file, h]
  · intro isf h
    simp only [is_video_file, h]
    decide
  · intro isf h
    simp only [is_video_file, h]
    decide

theorem C5_video_classifier_witness :
    is_video_file (fun p => decide (p = chars ("a.MP4") ∨ p = chars ("notes.txt")))
        (chars ("a.MP4")) = true
    ∧ is_video_file (fun p => decide (p = chars ("a.MP4") ∨ p = chars ("notes.txt")))
        (chars ("notes.txt")) = false
    ∧ is_video_file (fun p => decide (p = chars ("a.MP4") ∨ p = chars ("notes.txt")))
        (chars ("missing.avi")) = false :=
  ⟨C5_video_classifier.2.2.2 _ (by decide),
   C5_video_classifier.2.2.1 _ (by decide),
   C5_video_classifier.2.1 _ _ (by decide)⟩

/-- Claim C6: the Manifest Builder writes exactly one line per input, in list
order, of the literal form file quote path quote, with every single-quote in
the path replaced by the four-character escape sequence; such a line parses
back under the quoted-token grammar, so it is never unterminated. -/
theorem C6_manifest_escaping :
    (∀ abspath : List Char → List Char, ∀ file_paths : List (List Char),
      build_filelist_lines abspath file_paths =
        file_paths.map (fun p => chars ("file '") ++ escape_quotes (abspath p) ++ chars ("'")))
    ∧ escape_quotes ['\''] = ['\'', '\\', '\'', '\'']
    ∧ (∀ a b : List Char, escape_quotes (a ++ '\'' :: b) =
        escape_quotes a ++ ('\'' :: '\\' :: '\'' :: '\'' :: []) ++ escape_quotes b)
    ∧ (∀ c : Char, c ≠ '\'' → escape_quotes [c] = [c])
    ∧ (∀ p : List Char, parseQ QState.outside ('\'' :: (escape_quotes p ++ ['\''])) = some p) := by
  refine ⟨?_, ?_, ?_, ?_, ?_⟩
  · intro ap fps
    rfl
  · rfl
  · intro a b
    induction a with
    | nil => simp [escape_quotes]
    | cons c cs ih => simp [escape_quotes, ih]
  · intro c hc
    simp [escape_quotes, hc]
  · intro p
    rw [parseQ_out_q]
    exact parse_escape p

theorem C6_manifest_escaping_witness : escape_quotes ['a'] = ['a'] :=
  C6_manifest_escaping.2.2.2.1 'a' (by decide)

/-- Claim C10: the Manifest Builder converts each given path to its absolute
form before escaping and writing it, one line per given path with no
existence check — the line count always equals the input count, for any
abspath oracle and any paths. -/
theorem C10_manifest_absolute (abspath : List Char → List Char)
    (file_paths : List (List Char)) :
    (build_filelist_lines abspath file_paths).length = file_paths.length
    ∧ ∀ (i : Nat) (p : List Char), file_paths[i]? = some p →
        (build_filelist_lines abspath file_paths)[i]? =
          some (chars ("file '") ++ escape_quotes (abspath p) ++ chars ("'")) := by
  constructor
  · simp [build_filelist_lines]
  · intro i p hp
    unfold build_filelist_lines
    rw [List.getElem?_map, hp]
    rfl

theorem C10_manifest_absolute_witness :
    (build_filelist_lines (fun p => chars ("/d/") ++ p) [chars ("a.mp4")])[0]? =
      some (chars ("file '") ++ escape_quotes (chars ("/d/") ++ chars ("a.mp4")) ++ chars ("'")) :=
  (C10_manifest_absolute (fun p => chars ("/d/") ++ p) [chars ("a.mp4")]).2 0
    (chars ("a.mp4")) rfl

theorem setRemoveRaises_ffmpegFound (env : Env) (b : Bool) :
    (setRemoveRaises env b).ffmpegFound = env.ffmpegFound := rfl

theorem setRemoveRaises_execRaises (env : Env) (b : Bool) :
    (setRemoveRaises env b).execRaises = env.execRaises := rfl

theorem setRemoveRaises_runCopy (env : Env) (b : Bool) :
    (setRemoveRaises env b).runCopy = env.runCopy := rfl

theorem setRemoveRaises_runReencode (env : Env) (b : Bool) :
    (setRemoveRaises env b).runReencode = env.runReencode := rfl

theorem setRemoveRaises_cwd (env : Env) (b : Bool) :
    (setRemoveRaises env b).cwd = env.cwd := rfl

theorem videoFilesOf_setRemoveRaises (env : Env) (b : Bool) :
    videoFilesOf (setRemoveRaises env b) = videoFilesOf env := rfl

theorem inputsOf_setRemoveRaises (env : Env) (b : Bool) :
    inputsOf (setRemoveRaises env b) = inputsOf env := rfl

theorem merge_main_shape (env : Env) :
    merge_main env = (MainRes.exit 1, ⟨false, none, false, false, []⟩)
    ∨ merge_main env = (MainRes.exit 0, ⟨true, none, false, false, []⟩)
    ∨ (env.execRaises = true ∧ merge_main env =
        (MainRes.raised,
         ⟨false, some ((inputsOf env).map (fun f => pathJoin env.cwd f)), true,
          !env.removeRaises, []⟩))
    ∨ (env.execRaises = false ∧ merge_main env =
        ((if (run_ffmpeg_concat env.runCopy env.runReencode).1.1 then MainRes.exit 0
          else MainRes.exit 2),
         ⟨false, some ((inputsOf env).map (fun f => pathJoin env.cwd f)), true,
          !env.removeRaises, (run_ffmpeg_concat env.runCopy env.runReencode).2⟩)) := by
  by_cases h1 : env.ffmpegFound = false
  · left
    simp [merge_main, h1]
  · by_cases h2 : (videoFilesOf env).length < 2
    · right; left
      simp [merge_main, h1, h2]
    · by_cases h3 : (inputsOf env).length < 2
      · right; left
        simp [merge_main, h1, h2, h3]
      · by_cases h4 : env.execRaises = true
        · right; right; left
          exact ⟨h4, by simp [merge_main, h1, h2, h3, h4]⟩
        · right; right; right
          refine ⟨by simpa using h4, ?_⟩
          simp [merge_main, h1, h2, h3, h4]

/-- Claim C2: on every run that reaches manifest creation the manifest is
deleted before returning, on every exit path including when the executor
raises; a deletion failure is ignored and never changes the reported
outcome; when both attempts fail the manifest is removed and the exit code
is 2. -/
theorem C2_manifest_cleanup (env : Env) :
    ((merge_main env).2.manifestInputs.isSome = true →
      (merge_main env).2.removeAttempted = true
      ∧ (env.removeRaises = false → (merge_main env).2.manifestRemoved = true))
    ∧ (∀ b : Bool, (merge_main (setRemoveRaises env b)).1 = (merge_main env).1)
    ∧ (env.execRaises = false → (merge_main env).2.manifestInputs.isSome = true →
        attemptOk env.runCopy = false → attemptOk env.runReencode = false →
        (merge_main env).1 = MainRes.exit 2
        ∧ (env.removeRaises = false → (merge_main env).2.manifestRemoved = true))
    ∧ (env.execRaises = true → (merge_main env).2.manifestInputs.isSome = true →
        (merge_main env).1 = MainRes.raised
        ∧ (merge_main env).2.removeAttempted = true) := by
  refine ⟨?_, ?_, ?_, ?_⟩
  · intro hsome
    rcases merge_main_shape env with hs | hs | ⟨hr, hs⟩ | ⟨hr, hs⟩
    · rw [hs] at hsome; simp at hsome
    · rw [hs] at hsome; simp at hsome
    · rw [hs]
      exact ⟨rfl, fun hrr => by simp [hrr]⟩
    · rw [hs]
      exact ⟨rfl, fun hrr => by simp [hrr]⟩
  · intro b
    simp only [merge_main, setRemoveRaises_ffmpegFound, setRemoveRaises_execRaises,
      setRemoveRaises_runCopy, setRemoveRaises_runReencode, setRemoveRaises_cwd,
      videoFilesOf_setRemoveRaises, inputsOf_setRemoveRaises]
    by_cases h1 : env.ffmpegFound = false
    · simp [h1]
    · by_cases h2 : (videoFilesOf env).length < 2
      · simp [h1, h2]
      · by_cases h3 : (inputsOf env).length < 2
        · simp [h1, h2, h3]
        · by_cases h4 : env.execRaises = true
          · simp [h1, h2, h3, h4]
          · simp [h1, h2, h3, h4]
  · intro hnr hsome hc1 hc2
    rcases merge_main_shape env with hs | hs | ⟨hr, hs⟩ | ⟨hr, hs⟩
    · rw [hs] at hsome; simp at hsome
    · rw [hs] at hsome; simp at hsome
    · rw [hr] at hnr; simp at hnr
    · have hrun : (run_ffmpeg_concat env.runCopy env.runReencode).1.1 = false := by
        simp [run_ffmpeg_concat, hc1, hc2]
      rw [hs]
      refine ⟨by simp [hrun], fun hrr => by simp [hrr]⟩
  · intro hr hsome
    rcases merge_main_shape env with hs | hs | ⟨hr2, hs⟩ | ⟨hr2, hs⟩
    · rw [hs] at hsome; simp at hsome
    · rw [hs] at hsome; simp at hsome
    · rw [hs]
      exact ⟨rfl, rfl⟩
    · rw [hr] at hr2; simp at hr2

theorem C2_manifest_cleanup_witness :
    (merge_main envBothFail).1 = MainRes.exit 2
    ∧ (merge_main envBothFail).2.manifestRemoved = true :=
  ⟨((C2_manifest_cleanup envBothFail).2.2.1 rfl (by decide) (by decide) (by decide)).1,
   ((C2_manifest_cleanup envBothFail).2.2.1 rfl (by decide) (by decide) (by decide)).2 rfl⟩

/-- Claim C8: with fewer than two qualifying inputs, after classification or
after excluding the resolved output path, the Orchestrator reports nothing
to do and returns exit code 0 without creating a manifest and without any
transcoder invocation. -/
theorem C8_nothing_to_do (env : Env) (hf : env.ffmpegFound = true)
    (h : (videoFilesOf env).length < 2 ∨ (inputsOf env).length < 2) :
    merge_main env = (MainRes.exit 0, ⟨true, none, false, false, []⟩) := by
  have h1 : ¬ env.ffmpegFound = false := by rw [hf]; simp
  rcases h with h | h
  · simp [merge_main, h1, h]
  · by_cases h2 : (videoFilesOf env).length < 2
    · simp [merge_main, h1, h2]
    · simp [merge_main, h1, h2, h]

theorem C8_nothing_to_do_witness :
    merge_main envOneVideo = (MainRes.exit 0, ⟨true, none, false, false, []⟩) :=
  C8_nothing_to_do envOneVideo rfl (Or.inl (by decide))

/-- Claim C9: the list handed to the Manifest Builder and the Merge Executor
is exactly the filtered input list, and no element of it resolves to the
output path — a file is never merged into itself. -/
theorem C9_output_excluded (env : Env) (l : List (List Char))
    (h : (merge_main env).2.manifestInputs = some l) :
    l = (inputsOf env).map (fun f => pathJoin env.cwd f)
    ∧ ∀ p ∈ l, env.abspath p ≠ output_pathOf env := by
  have hl : l = (inputsOf env).map (fun f => pathJoin env.cwd f) := by
    rcases merge_main_shape env with hs | hs | ⟨hr, hs⟩ | ⟨hr, hs⟩
    · rw [hs] at h; simp at h
    · rw [hs] at h; simp at h
    · rw [hs] at h; simp at h; exact h.symm
    · rw [hs] at h; simp at h; exact h.symm
  refine ⟨hl, ?_⟩
  intro p hp
  rw [hl, List.mem_map] at hp
  obtain ⟨f, hf, hpf⟩ := hp
  unfold inputsOf at hf
  rw [List.mem_filter] at hf
  rw [← hpf]
  exact of_decide_eq_true hf.2

theorem C9_output_excluded_witness :
    [chars ("/d/a.mp4"), chars ("/d/b.mp4")] =
      (inputsOf envOutputClash).map (fun f => pathJoin envOutputClash.cwd f)
    ∧ ∀ p ∈ [chars ("/d/a.mp4"), chars ("/d/b.mp4")],
        envOutputClash.abspath p ≠ output_pathOf envOutputClash :=
  C9_output_excluded envOutputClash [chars ("/d/a.mp4"), chars ("/d/b.mp4")] (by decide)

/-- Claim C3: the Natural Order Comparator orders filenames exactly as the
spec describes — alternating non-digit and digit runs, digit runs by integer
value, non-digit runs case-insensitively, run by run left to right, proper
prefix first (the order spec_lt modelled from those words) — and sorting
clip2, clip10, clip1 yields clip1, clip2, clip10. -/
theorem C3_natural_order :
    (∀ s t : List Char, natLt s t ↔ spec_lt s t)
    ∧ sortNat [chars ("clip2.mp4"), chars ("clip10.mp4"), chars ("clip1.mp4")] =
        [chars ("clip1.mp4"), chars ("clip2.mp4"), chars ("clip10.mp4")] := by
  constructor
  · intro s t
    unfold natLt spec_lt
    rw [natKey_cmp_defined]
    constructor
    · intro h
      exact Option.some.inj h
    · intro h
      rw [h]
  · decide

/-- Claim C4: comparison of natural-sort keys is always defined — keys hold
text at even positions and integers at odd positions, so an integer run is
never compared against a text run — and the induced order is a strict weak
ordering: irreflexive, transitive, with transitive incomparability. -/
theorem C4_strict_weak_order :
    (∀ s t : List Char,
      (listCmp (natural_sort_key s) (natural_sort_key t)).isSome = true)
    ∧ (∀ (s : List Char) (i : Nat) (e : PyKeyElem),
        (natural_sort_key s)[i]? = some e → e.isStr = decide (i % 2 = 0))
    ∧ (∀ s : List Char, ¬ natLt s s)
    ∧ (∀ s t u : List Char, natLt s t → natLt t u → natLt s u)
    ∧ (∀ s t u : List Char, natIncomp s t → natIncomp t u → natIncomp s u) := by
  refine ⟨?_, ?_, ?_, ?_, ?_⟩
  · intro s t
    rw [natKey_cmp_defined]
    rfl
  · exact natKey_pos
  · exact natLt_irrefl
  · exact fun s t u h1 h2 => natLt_trans h1 h2
  · intro s t u h1 h2
    have k12 := natIncomp_key_eq h1
    have k23 := natIncomp_key_eq h2
    constructor
    · unfold natLt
      rw [k12, k23, listCmp_refl]
      simp
    · unfold natLt
      rw [k12, k23, listCmp_refl]
      simp

theorem C4_strict_weak_order_witness :
    natLt (chars ("clip1.mp4")) (chars ("clip10.mp4"))
    ∧ natIncomp (chars ("a.mp4")) (chars ("A.mp4")) :=
  ⟨C4_strict_weak_order.2.2.2.1 (chars ("clip1.mp4")) (chars ("clip2.mp4"))
      (chars ("clip10.mp4")) (by decide) (by decide),
   C4_strict_weak_order.2.2.2.2 (chars ("a.mp4")) (chars ("A.MP4")) (chars ("A.mp4"))
      (by decide) (by decide)⟩
